import Mathlib

/-!
Verification of the sync_cell concurrent-queue library against its
natural-language specification.

The development shallowly embeds the relevant C++ components as pure Lean
functions on explicit state values.  Pointer-based heaps are modelled as
lists indexed by allocation order (a node id is its index in the heap
list); stateful operations become state-passing functions; atomic
compare-and-swap loops are embedded in their single-threaded execution,
where every CAS succeeds on the first attempt; spin-wait loops that can
only be released by another thread are embedded as functions returning
Option, with none for the sequentially-stuck case.
-/

namespace SyncCell

/-! ## Backoff (src/util/back_off.hpp, class sc::util::Backoff)

The backoff object holds a single counter step_ (uint32_t, initial 0).
The counter is bounded by 11 in every reachable state, so plain Nat
arithmetic coincides with the uint32_t arithmetic of the source. -/

namespace Backoff

def SpinLimit : Nat := 6

def YieldLimit : Nat := 10

/-- What one backoff call does to the processor: a number of pause-hint
instructions, or one cooperative yield of the OS time slice. -/
inductive Action where
  | pause (hints : Nat)
  | yieldThread
deriving DecidableEq

/-- Initial value of step_ and the value stored by reset(). -/
def resetStep : Nat := 0

/-- Processor effect of spin(): 2 ^ min(step_, SpinLimit) pause hints. -/
def spinAction (step : Nat) : Action := .pause (2 ^ min step SpinLimit)

/-- Counter update of spin(): increment only while step_ <= SpinLimit. -/
def spinStep (step : Nat) : Nat := if step ≤ SpinLimit then step + 1 else step

/-- Processor effect of snooze(): 2 ^ step_ pause hints while
step_ <= SpinLimit, otherwise one std::this_thread::yield(). -/
def snoozeAction (step : Nat) : Action :=
  if step ≤ SpinLimit then .pause (2 ^ step) else .yieldThread

/-- Counter update of snooze(): increment only while step_ <= YieldLimit. -/
def snoozeStep (step : Nat) : Nat := if step ≤ YieldLimit then step + 1 else step

/-- is_completed(): step_ > YieldLimit. -/
def is_completed (step : Nat) : Bool := YieldLimit < step

/-- Counter value after k snooze() calls from a fresh (or reset) backoff. -/
def snoozeIter : Nat → Nat
  | 0 => resetStep
  | k + 1 => snoozeStep (snoozeIter k)

/-- A call made on a Backoff object. -/
inductive Op where
  | spin
  | snooze

def applyOp : Op → Nat → Nat
  | .spin, s => spinStep s
  | .snooze, s => snoozeStep s

/-- Counter value after a sequence of spin()/snooze() calls. -/
def applyOps : List Op → Nat → Nat
  | [], s => s
  | o :: os, s => applyOps os (applyOp o s)

theorem snoozeIter_eq_min (k : Nat) : snoozeIter k = min k (YieldLimit + 1) := by
  induction k with
  | zero => rfl
  | succ k ih =>
    simp only [snoozeIter, ih, snoozeStep, YieldLimit]
    split <;> omega

theorem applyOp_le (o : Op) (s : Nat) : s ≤ applyOp o s := by
  cases o <;> simp only [applyOp, spinStep, snoozeStep] <;> split <;> omega

theorem applyOps_le (ops : List Op) (s : Nat) : s ≤ applyOps ops s := by
  induction ops generalizing s with
  | nil => exact Nat.le_refl s
  | cons o os ih => exact Nat.le_trans (applyOp_le o s) (ih (applyOp o s))

theorem applyOps_bounded (ops : List Op) (s : Nat) (h : s ≤ YieldLimit + 1) :
    applyOps ops s ≤ YieldLimit + 1 := by
  induction ops generalizing s with
  | nil => exact h
  | cons o os ih =>
    apply ih
    cases o <;> simp only [applyOp, spinStep, snoozeStep, SpinLimit, YieldLimit] at * <;>
      split <;> omega

theorem applyOps_spin_bounded (n : Nat) (s : Nat) (h : s ≤ SpinLimit + 1) :
    applyOps (List.replicate n .spin) s ≤ SpinLimit + 1 := by
  induction n generalizing s with
  | zero => exact h
  | succ n ih =>
    simp only [List.replicate, applyOps, applyOp]
    apply ih
    simp only [spinStep, SpinLimit] at *
    split <;> omega

end Backoff

/-- Claim C5: from a fresh Backoff (or after reset()), is_completed() is
false after fewer than YIELD_LIMIT + 1 = 11 snooze() calls and true from
the 11th snooze() on; snooze() performs 2^step pause hints while
step <= SPIN_LIMIT = 6 and otherwise yields the thread; it increments the
step counter only while step <= YIELD_LIMIT = 10. -/
theorem backoff_snooze_escalation :
    (∀ k : Nat, Backoff.is_completed (Backoff.snoozeIter k) = true ↔
      Backoff.YieldLimit + 1 ≤ k)
    ∧ (∀ s : Nat, s ≤ Backoff.SpinLimit →
        Backoff.snoozeAction s = .pause (2 ^ s))
    ∧ (∀ s : Nat, Backoff.SpinLimit < s →
        Backoff.snoozeAction s = .yieldThread)
    ∧ (∀ s : Nat, s ≤ Backoff.YieldLimit → Backoff.snoozeStep s = s + 1)
    ∧ (∀ s : Nat, Backoff.YieldLimit < s → Backoff.snoozeStep s = s)
    ∧ Backoff.resetStep = 0 ∧ Backoff.SpinLimit = 6 ∧ Backoff.YieldLimit = 10 := by
  refine ⟨fun k => ?_, fun s hs => ?_, fun s hs => ?_, fun s hs => ?_, fun s hs => ?_,
    rfl, rfl, rfl⟩
  · rw [Backoff.snoozeIter_eq_min]
    simp only [Backoff.is_completed, Backoff.YieldLimit, decide_eq_true_eq]
    omega
  · simp [Backoff.snoozeAction, hs]
  · simp [Backoff.snoozeAction, Nat.not_le.mpr hs]
  · simp [Backoff.snoozeStep, hs]
  · simp [Backoff.snoozeStep, Nat.not_le.mpr hs]

theorem backoff_snooze_escalation_witness :
    Backoff.is_completed (Backoff.snoozeIter 11) = true
    ∧ (Backoff.is_completed (Backoff.snoozeIter 10) = true ↔ False)
    ∧ Backoff.snoozeAction 3 = .pause 8
    ∧ Backoff.snoozeAction 9 = .yieldThread
    ∧ Backoff.snoozeStep 10 = 11
    ∧ Backoff.snoozeStep 11 = 11 := by
  refine ⟨(backoff_snooze_escalation.1 11).mpr (by decide),
    ⟨fun h => ?_, fun h => h.elim⟩,
    backoff_snooze_escalation.2.1 3 (by decide),
    backoff_snooze_escalation.2.2.1 9 (by decide),
    backoff_snooze_escalation.2.2.2.1 10 (by decide),
    backoff_snooze_escalation.2.2.2.2.1 11 (by decide)⟩
  exact absurd ((backoff_snooze_escalation.1 10).mp h) (by decide)

/-- Claim C9: the step counter is non-decreasing under any sequence of
spin() and snooze() calls and, starting from 0, never exceeds
YIELD_LIMIT + 1 = 11; spin() increments it only while step <= SPIN_LIMIT,
so after any all-spin() sequence the counter is at most SPIN_LIMIT + 1 = 7
and is_completed() is still false. -/
theorem backoff_step_monotone_bounded :
    (∀ (ops : List Backoff.Op) (s : Nat), s ≤ Backoff.applyOps ops s)
    ∧ (∀ ops : List Backoff.Op,
        Backoff.applyOps ops Backoff.resetStep ≤ Backoff.YieldLimit + 1)
    ∧ (∀ s : Nat, s ≤ Backoff.SpinLimit → Backoff.spinStep s = s + 1)
    ∧ (∀ s : Nat, Backoff.SpinLimit < s → Backoff.spinStep s = s)
    ∧ (∀ n : Nat,
        Backoff.applyOps (List.replicate n .spin) Backoff.resetStep ≤
          Backoff.SpinLimit + 1
        ∧ Backoff.is_completed
            (Backoff.applyOps (List.replicate n .spin) Backoff.resetStep) = false) := by
  refine ⟨Backoff.applyOps_le, fun ops => ?_, fun s hs => ?_, fun s hs => ?_, fun n => ?_⟩
  · exact Backoff.applyOps_bounded ops _ (by decide)
  · simp [Backoff.spinStep, hs]
  · simp [Backoff.spinStep, Nat.not_le.mpr hs]
  · have hb := Backoff.applyOps_spin_bounded n Backoff.resetStep (by decide)
    refine ⟨hb, ?_⟩
    have h7 : Backoff.applyOps (List.replicate n .spin) Backoff.resetStep ≤ 7 := hb
    simp only [Backoff.is_completed, Backoff.YieldLimit, decide_eq_false_iff_not, Nat.not_lt]
    omega

theorem backoff_step_monotone_bounded_witness :
    3 ≤ Backoff.applyOps [.snooze, .spin, .snooze] 3
    ∧ Backoff.applyOps [.spin, .snooze] Backoff.resetStep ≤ Backoff.YieldLimit + 1
    ∧ Backoff.spinStep 6 = 7
    ∧ Backoff.spinStep 7 = 7
    ∧ Backoff.applyOps (List.replicate 20 .spin) Backoff.resetStep ≤ Backoff.SpinLimit + 1 :=
  ⟨backoff_step_monotone_bounded.1 [.snooze, .spin, .snooze] 3,
    backoff_step_monotone_bounded.2.1 [.spin, .snooze],
    backoff_step_monotone_bounded.2.2.1 6 (by decide),
    backoff_step_monotone_bounded.2.2.2.1 7 (by decide),
    (backoff_step_monotone_bounded.2.2.2.2 20).1⟩

/-! ## Linked-list MPMC queue
(src/unnamed/part_010, second file: sc::mpmc::LinkedListQueue with the
tagged head pointer; template parameter PoolSize defaults to 0, so the
node pool is the pass-through specialization of ObjectCachePool: alloc
allocates a fresh node, dealloc frees it.)

The heap of nodes is a list indexed by allocation order: a node pointer
is its index.  The atomic head_ and tail_ are a Nat and an Option Nat
(tail_ is CAS-stolen to null by the destructor).  In the single-threaded
execution every CAS succeeds on its first attempt; in particular the
head tag bit of try_dequeue is acquired and released within the call, so
it never shows in the externally visible state.  Freed node ids are
accumulated in the freed list (nodes are never removed from the heap
list, mirroring that freed memory is simply no longer reachable). -/

namespace MpmcLL

structure Node (α : Type) where
  next : Option Nat
  value : Option α
deriving DecidableEq

structure QState (α : Type) where
  nodes : List (Node α)
  head : Nat
  tail : Option Nat
  freed : List Nat
deriving DecidableEq

def dfltNode {α : Type} : Node α := ⟨none, none⟩

def getNode (s : QState α) (i : Nat) : Node α := s.nodes.getD i dfltNode

/-- Overwrite the next field of node i (the store queue_tail->next = node). -/
def setNext (s : QState α) (i : Nat) (nx : Option Nat) : QState α :=
  { s with nodes := s.nodes.set i ⟨nx, (s.nodes.getD i dfltNode).value⟩ }

/-- Constructor: allocate the sentinel node, point head_ and tail_ at it. -/
def initState {α : Type} : QState α := ⟨[dfltNode], 0, some 0, []⟩

/-- release_node: with PoolSize = 0 the pool dealloc destroys the node and
returns its memory to the allocator. -/
def release_node (s : QState α) (i : Nat) : QState α := { s with freed := i :: s.freed }

/-- enqueue(value) followed by enqueue_node(p), single-threaded: allocate
a node holding the value; if the loaded tail_ is null the queue is being
destroyed, so release the node and return; otherwise CAS tail_ to the
node (succeeds at once) and publish it via queue_tail->next.store(node). -/
def enqueue (s : QState α) (v : α) : QState α :=
  let id := s.nodes.length
  let s1 : QState α := { s with nodes := s.nodes ++ [⟨none, some v⟩] }
  match s.tail with
  | none => release_node s1 id
  | some t => setNext { s1 with tail := some id } t (some id)

/-- try_dequeue, single-threaded: the tag CAS on head_ succeeds at once;
read sentinel->next; if null, store the untagged pointer back and return
empty; else read the successor value, store head_ = next, release the old
sentinel. -/
def try_dequeue (s : QState α) : Option α × QState α :=
  let ptr := s.head
  match (getNode s ptr).next with
  | none => (none, s)
  | some nx => ((getNode s nx).value, release_node { s with head := nx } ptr)

def enqueueAll (s : QState α) (vs : List α) : QState α := vs.foldl enqueue s

/-- The results of n successive try_dequeue calls. -/
def dequeueN : Nat → QState α → List (Option α) × QState α
  | 0, s => ([], s)
  | n + 1, s =>
    let r := try_dequeue s
    let rs := dequeueN n r.2
    (r.1 :: rs.1, rs.2)

/-- clear(): dequeue until try_dequeue returns empty (fuel-bounded). -/
def clearFuel : Nat → QState α → QState α
  | 0, s => s
  | f + 1, s =>
    match try_dequeue s with
    | (none, s1) => s1
    | (some _, s1) => clearFuel f s1

/-- The destructor drain loop: while (head != stolen_tail) clear(). -/
def drainLoop : Nat → Nat → QState α → QState α
  | 0, _, s => s
  | f + 1, t, s => if s.head = t then s else drainLoop f t (clearFuel s.nodes.length s)

/-- ~LinkedListQueue, single-threaded: CAS-steal tail_ to null, drain
until head equals the stolen tail, release the final sentinel.  Returns
none when a loop would not terminate within its fuel (this never happens
from a well-formed state). -/
def destruct (s : QState α) : Option (QState α) :=
  match s.tail with
  | none => none
  | some t =>
    let s1 : QState α := { s with tail := none }
    let s2 := drainLoop (s1.nodes.length + 1) t s1
    if s2.head = t then some (release_node s2 t) else none

/-- The heap shape of a single-threaded reachable queue holding the FIFO
list L: the sentinel sits at index head, the live values occupy the
consecutively allocated nodes head+1 .. head+|L| chained in order, and
the last of them (= the node tail_ points to) has a null next. -/
def ChainInv (s : QState α) (L : List α) : Prop :=
  s.nodes.length = s.head + L.length + 1
  ∧ (∀ j, j < L.length → (getNode s (s.head + j)).next = some (s.head + j + 1))
  ∧ (∀ j, j < L.length → (getNode s (s.head + 1 + j)).value = L.get? j)
  ∧ (getNode s (s.head + L.length)).next = none

def WF (s : QState α) (L : List α) : Prop :=
  ChainInv s L ∧ s.tail = some (s.head + L.length)

instance [DecidableEq α] (s : QState α) (L : List α) : Decidable (ChainInv s L) := by
  unfold ChainInv
  infer_instance

instance [DecidableEq α] (s : QState α) (L : List α) : Decidable (WF s L) := by
  unfold WF
  infer_instance

theorem getD_append_lt (l : List (Node α)) (n d : Node α) (i : Nat) (h : i < l.length) :
    (l ++ [n]).getD i d = l.getD i d := by
  rw [List.getD_eq_getElem?_getD, List.getD_eq_getElem?_getD, List.getElem?_append_left h]

theorem getD_append_len (l : List (Node α)) (n d : Node α) :
    (l ++ [n]).getD l.length d = n := by
  rw [List.getD_eq_getElem?_getD, List.getElem?_concat_length]
  rfl

theorem getD_set_ne (l : List (Node α)) (n d : Node α) (i j : Nat) (h : i ≠ j) :
    (l.set i n).getD j d = l.getD j d := by
  rw [List.getD_eq_getElem?_getD, List.getD_eq_getElem?_getD, List.getElem?_set_ne h]

theorem getD_set_lt (l : List (Node α)) (n d : Node α) (i : Nat) (h : i < l.length) :
    (l.set i n).getD i d = n := by
  rw [List.getD_eq_getElem?_getD, List.getElem?_set_eq_of_lt n h]
  rfl

theorem wf_init : WF (initState (α := α)) [] := by
  refine ⟨⟨rfl, ?_, ?_, rfl⟩, rfl⟩ <;> intro j hj <;> exact absurd hj (Nat.not_lt_zero j)

theorem wf_enqueue {s : QState α} {L : List α} (h : WF s L) (v : α) :
    WF (enqueue s v) (L ++ [v]) := by
  obtain ⟨⟨hlen, hnext, hval, hterm⟩, htail⟩ := h
  have henq : enqueue s v =
      setNext { s with nodes := s.nodes ++ [⟨none, some v⟩], tail := some s.nodes.length }
        (s.head + L.length) (some s.nodes.length) := by
    simp only [enqueue, htail]
  have htlt : s.head + L.length < s.nodes.length := by omega
  -- component-wise description of the post-state heap
  have hgv : ∀ i, i < s.nodes.length →
      (getNode (enqueue s v) i).value = (getNode s i).value := by
    intro i hi
    rw [henq]
    simp only [setNext, getNode]
    by_cases hit : s.head + L.length = i
    · subst hit
      rw [getD_set_lt _ _ _ _ (by simpa using Nat.lt_succ_of_lt htlt),
        getD_append_lt _ _ _ _ htlt]
    · rw [getD_set_ne _ _ _ _ _ hit, getD_append_lt _ _ _ _ hi]
  have hgn : ∀ i, i < s.nodes.length → s.head + L.length ≠ i →
      (getNode (enqueue s v) i).next = (getNode s i).next := by
    intro i hi hne
    rw [henq]
    simp only [setNext, getNode]
    rw [getD_set_ne _ _ _ _ _ hne, getD_append_lt _ _ _ _ hi]
  have hgt : (getNode (enqueue s v) (s.head + L.length)).next = some s.nodes.length := by
    rw [henq]
    simp only [setNext, getNode]
    rw [getD_set_lt _ _ _ _ (by simpa using Nat.lt_succ_of_lt htlt)]
  have hgnew : getNode (enqueue s v) s.nodes.length = ⟨none, some v⟩ := by
    rw [henq]
    simp only [setNext, getNode]
    rw [getD_set_ne _ _ _ _ _ (by omega)]
    have := getD_append_len s.nodes (⟨none, some v⟩ : Node α) dfltNode
    exact this
  have hlen2 : (enqueue s v).nodes.length = s.nodes.length + 1 := by
    rw [henq]; simp [setNext]
  have hhd : (enqueue s v).head = s.head := by rw [henq]; rfl
  have htl : (enqueue s v).tail = some s.nodes.length := by rw [henq]; rfl
  refine ⟨⟨?_, ?_, ?_, ?_⟩, ?_⟩
  · rw [hlen2, hhd]
    simp only [List.length_append, List.length_cons, List.length_nil]
    omega
  · intro j hj
    rw [hhd]
    simp only [List.length_append, List.length_cons, List.length_nil] at hj
    by_cases hjk : j < L.length
    · rw [hgn _ (by omega) (by omega)]
      exact hnext j hjk
    · have hj' : j = L.length := by omega
      subst hj'
      rw [hgt, hlen]
  · intro j hj
    rw [hhd]
    simp only [List.length_append, List.length_cons, List.length_nil] at hj
    by_cases hjk : j < L.length
    · rw [hgv _ (by omega), List.get?_append hjk]
      exact hval j hjk
    · have hj' : j = L.length := by omega
      subst hj'
      have hidx : s.head + 1 + L.length = s.nodes.length := by omega
      rw [hidx, hgnew, List.get?_concat_length]
  · rw [hhd]
    simp only [List.length_append, List.length_cons, List.length_nil]
    have hidx : s.head + (L.length + 1) = s.nodes.length := by omega
    rw [hidx, hgnew]
  · rw [htl, hhd]
    simp only [List.length_append, List.length_cons, List.length_nil]
    exact congrArg some (by omega)

theorem dequeue_nil {s : QState α} (h : ChainInv s []) : try_dequeue s = (none, s) := by
  obtain ⟨-, -, -, hterm⟩ := h
  simp only [List.length_nil, Nat.add_zero] at hterm
  simp only [try_dequeue, hterm]

theorem dequeue_cons {s : QState α} {v : α} {L : List α} (h : ChainInv s (v :: L)) :
    try_dequeue s = (some v, ⟨s.nodes, s.head + 1, s.tail, s.head :: s.freed⟩)
    ∧ ChainInv (⟨s.nodes, s.head + 1, s.tail, s.head :: s.freed⟩ : QState α) L := by
  obtain ⟨hlen, hnext, hval, hterm⟩ := h
  have h0 : (getNode s s.head).next = some (s.head + 1) := by
    have := hnext 0 (by simp)
    simpa using this
  have hv0 : (getNode s (s.head + 1)).value = some v := by
    have := hval 0 (by simp)
    simpa using this
  have hget : ∀ i, getNode (⟨s.nodes, s.head + 1, s.tail, s.head :: s.freed⟩ : QState α) i
      = getNode s i := fun _ => rfl
  constructor
  · simp only [try_dequeue, h0, hv0, release_node]
  · refine ⟨?_, ?_, ?_, ?_⟩
    · simp only [List.length_cons] at hlen
      simpa using (by omega : s.nodes.length = s.head + 1 + L.length + 1)
    · intro j hj
      have hx := hnext (j + 1) (by simpa using Nat.succ_lt_succ hj)
      rw [hget]
      have hidx : s.head + 1 + j = s.head + (j + 1) := by omega
      rw [show (⟨s.nodes, s.head + 1, s.tail, s.head :: s.freed⟩ : QState α).head
          = s.head + 1 from rfl, hidx, hx]
    · intro j hj
      have hx := hval (j + 1) (by simpa using Nat.succ_lt_succ hj)
      rw [hget]
      have hidx : s.head + 1 + 1 + j = s.head + 1 + (j + 1) := by omega
      rw [show (⟨s.nodes, s.head + 1, s.tail, s.head :: s.freed⟩ : QState α).head
          = s.head + 1 from rfl, hidx, hx]
      rfl
    · rw [hget]
      have hidx : s.head + 1 + L.length = s.head + (v :: L).length := by
        simp only [List.length_cons]
        omega
      rw [show (⟨s.nodes, s.head + 1, s.tail, s.head :: s.freed⟩ : QState α).head
          = s.head + 1 from rfl, hidx]
      exact hterm

theorem wf_enqueueAll {s : QState α} {L : List α} (vs : List α) (h : WF s L) :
    WF (enqueueAll s vs) (L ++ vs) := by
  induction vs generalizing s L with
  | nil => simpa using h
  | cons v vs ih =>
    have h1 := wf_enqueue h v
    have h2 := ih h1
    simpa using h2

theorem dequeueN_spec (L : List α) : ∀ s : QState α, ChainInv s L →
    (dequeueN (L.length + 1) s).1 = L.map some ++ [none] := by
  induction L with
  | nil =>
    intro s h
    simp [dequeueN, dequeue_nil h]
  | cons v L ih =>
    intro s h
    obtain ⟨heq, hinv⟩ := dequeue_cons h
    have h1 : (dequeueN ((v :: L).length + 1) s).1
        = (try_dequeue s).1 :: (dequeueN (L.length + 1) (try_dequeue s).2).1 := rfl
    rw [h1, heq]
    dsimp only
    rw [ih _ hinv]
    simp

theorem clearFuel_spec (L : List α) : ∀ (s : QState α) (f : Nat), ChainInv s L →
    L.length < f →
    (clearFuel f s).nodes = s.nodes
    ∧ (clearFuel f s).tail = s.tail
    ∧ (clearFuel f s).head = s.head + L.length
    ∧ (∀ i, i ∈ s.freed → i ∈ (clearFuel f s).freed)
    ∧ (∀ i, s.head ≤ i → i < s.head + L.length → i ∈ (clearFuel f s).freed) := by
  induction L with
  | nil =>
    intro s f h hf
    obtain ⟨f, rfl⟩ : ∃ g, f = g + 1 := ⟨f - 1, by omega⟩
    have hstep : clearFuel (f + 1) s = s := by
      simp only [clearFuel, dequeue_nil h]
    rw [hstep]
    exact ⟨rfl, rfl, by simp, fun i hi => hi,
      fun i h1 h2 => by simp only [List.length_nil, Nat.add_zero] at h2; omega⟩
  | cons v L ih =>
    intro s f h hf
    obtain ⟨f, rfl⟩ : ∃ g, f = g + 1 := ⟨f - 1, by omega⟩
    obtain ⟨heq, hinv⟩ := dequeue_cons h
    have hstep : clearFuel (f + 1) s
        = clearFuel f (⟨s.nodes, s.head + 1, s.tail, s.head :: s.freed⟩ : QState α) := by
      simp only [clearFuel, heq]
    simp only [List.length_cons] at hf
    obtain ⟨h1, h2, h3, h4, h5⟩ :=
      ih (⟨s.nodes, s.head + 1, s.tail, s.head :: s.freed⟩ : QState α) f hinv (by omega)
    rw [hstep]
    refine ⟨by simpa using h1, by simpa using h2, ?_, ?_, ?_⟩
    · rw [h3]
      simp only [List.length_cons]
      omega
    · intro i hi
      exact h4 i (List.mem_cons_of_mem _ hi)
    · intro i hi1 hi2
      simp only [List.length_cons] at hi2
      rcases Nat.eq_or_lt_of_le hi1 with hi3 | hi3
      · exact h4 i (by simp [← hi3])
      · exact h5 i (show s.head + 1 ≤ i by omega) (show i < s.head + 1 + L.length by omega)

theorem destruct_spec {s : QState α} {L : List α} (h : WF s L) :
    ∃ s2, destruct s = some s2
      ∧ s2.tail = none
      ∧ s2.head = s.head + L.length
      ∧ s2.nodes = s.nodes
      ∧ (∀ i, s.head ≤ i → i ≤ s.head + L.length → i ∈ s2.freed) := by
  obtain ⟨hinv, htail⟩ := h
  have hs1 : ChainInv (⟨s.nodes, s.head, none, s.freed⟩ : QState α) L := hinv
  have hlen1 : L.length < s.nodes.length := by have := hinv.1; omega
  have hd : destruct s =
      (if (drainLoop (s.nodes.length + 1) (s.head + L.length)
            (⟨s.nodes, s.head, none, s.freed⟩ : QState α)).head = s.head + L.length
        then some (release_node (drainLoop (s.nodes.length + 1) (s.head + L.length)
            (⟨s.nodes, s.head, none, s.freed⟩ : QState α)) (s.head + L.length))
        else none) := by
    simp only [destruct, htail]
  by_cases hL : L.length = 0
  · -- the drain loop exits at once: head already equals the stolen tail
    have hdr : drainLoop (s.nodes.length + 1) (s.head + L.length)
        (⟨s.nodes, s.head, none, s.freed⟩ : QState α)
        = (⟨s.nodes, s.head, none, s.freed⟩ : QState α) := by
      simp only [drainLoop]
      rw [if_pos]
      show s.head = s.head + L.length
      omega
    rw [hd, hdr]
    rw [if_pos (show s.head = s.head + L.length by omega)]
    refine ⟨_, rfl, rfl, ?_, rfl, ?_⟩
    · show s.head = s.head + L.length
      omega
    · intro i hi1 hi2
      have : i = s.head + L.length := by omega
      simp [release_node, this]
  · -- one clear() brings the head to the stolen tail, the loop then exits
    obtain ⟨h1, h2, h3, h4, h5⟩ :=
      clearFuel_spec L (⟨s.nodes, s.head, none, s.freed⟩ : QState α) s.nodes.length hs1 hlen1
    have hhd3 : (clearFuel s.nodes.length (⟨s.nodes, s.head, none, s.freed⟩ : QState α)).head
        = s.head + L.length := h3
    have hdr1 : drainLoop (s.nodes.length + 1) (s.head + L.length)
        (⟨s.nodes, s.head, none, s.freed⟩ : QState α)
        = drainLoop s.nodes.length (s.head + L.length)
            (clearFuel s.nodes.length (⟨s.nodes, s.head, none, s.freed⟩ : QState α)) := by
      simp only [drainLoop]
      rw [if_neg]
      show ¬s.head = s.head + L.length
      omega
    obtain ⟨g, hg⟩ : ∃ g, s.nodes.length = g + 1 := ⟨s.nodes.length - 1, by omega⟩
    have hdr2 : drainLoop s.nodes.length (s.head + L.length)
        (clearFuel s.nodes.length (⟨s.nodes, s.head, none, s.freed⟩ : QState α))
        = clearFuel s.nodes.length (⟨s.nodes, s.head, none, s.freed⟩ : QState α) := by
      have hh := hhd3
      rw [hg] at hh ⊢
      simp only [drainLoop]
      rw [if_pos hh]
    rw [hd, hdr1, hdr2, if_pos hhd3]
    refine ⟨_, rfl, ?_, ?_, ?_, ?_⟩
    · simp only [release_node]
      exact h2
    · simp only [release_node]
      exact hhd3
    · simp only [release_node]
      exact h1
    · intro i hi1 hi2
      simp only [release_node]
      rcases Nat.lt_or_ge i (s.head + L.length) with hi3 | hi3
      · exact List.mem_cons_of_mem _ (h5 i hi1 hi3)
      · have : i = s.head + L.length := by omega
        simp [this]

end MpmcLL

/-- Claim C1: single-threaded FIFO on the linked-list MPMC queue: from a
fresh queue, dequeues return the enqueued values in enqueue order and
then empty; in particular after enqueue(1), enqueue(2), enqueue(3) four
successive try_dequeue calls return some 1, some 2, some 3, none. -/
theorem mpmc_fifo_single_thread :
    (∀ (α : Type) (vs : List α),
      (MpmcLL.dequeueN (vs.length + 1) (MpmcLL.enqueueAll MpmcLL.initState vs)).1
        = vs.map some ++ [none])
    ∧ (MpmcLL.dequeueN 4
        (MpmcLL.enqueueAll MpmcLL.initState [(1 : Int), 2, 3])).1
        = [some 1, some 2, some 3, none] := by
  have hgen : ∀ (α : Type) (vs : List α),
      (MpmcLL.dequeueN (vs.length + 1) (MpmcLL.enqueueAll MpmcLL.initState vs)).1
        = vs.map some ++ [none] := by
    intro α vs
    have hwf := MpmcLL.wf_enqueueAll (L := []) vs MpmcLL.wf_init
    simp only [List.nil_append] at hwf
    exact MpmcLL.dequeueN_spec vs _ hwf.1
  refine ⟨hgen, ?_⟩
  have := hgen Int [1, 2, 3]
  simpa using this

/-- Claim C6: the destructor CAS-steals tail to null, dequeues until head
equals the stolen tail, and frees the final sentinel (so every node from
the old head up to and including the stolen tail ends up freed); after
the steal, an enqueue that observes the null tail frees its freshly
allocated node and returns with the queue left unmodified. -/
theorem mpmc_destruction_protocol :
    (∀ (α : Type) (s : MpmcLL.QState α) (L : List α), MpmcLL.WF s L →
      ∃ s2, MpmcLL.destruct s = some s2
        ∧ s2.tail = none
        ∧ s2.head = s.head + L.length
        ∧ s2.nodes = s.nodes
        ∧ (∀ i, s.head ≤ i → i ≤ s.head + L.length → i ∈ s2.freed))
    ∧ (∀ (α : Type) (q : MpmcLL.QState α) (v : α), q.tail = none →
        (MpmcLL.enqueue q v).head = q.head
        ∧ (MpmcLL.enqueue q v).tail = none
        ∧ (∀ i, i < q.nodes.length →
            MpmcLL.getNode (MpmcLL.enqueue q v) i = MpmcLL.getNode q i)
        ∧ q.nodes.length ∈ (MpmcLL.enqueue q v).freed) := by
  constructor
  · intro α s L h
    exact MpmcLL.destruct_spec h
  · intro α q v hq
    have henq : MpmcLL.enqueue q v =
        MpmcLL.release_node
          ({ q with nodes := q.nodes ++ [⟨none, some v⟩] }) q.nodes.length := by
      simp only [MpmcLL.enqueue, hq]
    refine ⟨?_, ?_, ?_, ?_⟩
    · rw [henq]; exact hq ▸ rfl
    · rw [henq]; exact hq
    · intro i hi
      rw [henq]
      simp only [MpmcLL.release_node, MpmcLL.getNode]
      exact MpmcLL.getD_append_lt _ _ _ _ hi
    · rw [henq]
      simp [MpmcLL.release_node]

theorem mpmc_destruction_protocol_witness :
    MpmcLL.WF (MpmcLL.enqueueAll (MpmcLL.initState (α := Nat)) [5, 6]) [5, 6]
    ∧ (∃ s2, MpmcLL.destruct (MpmcLL.enqueueAll (MpmcLL.initState (α := Nat)) [5, 6])
          = some s2
        ∧ s2.tail = none
        ∧ s2.head = (MpmcLL.enqueueAll (MpmcLL.initState (α := Nat)) [5, 6]).head + 2
        ∧ s2.nodes = (MpmcLL.enqueueAll (MpmcLL.initState (α := Nat)) [5, 6]).nodes
        ∧ (∀ i, (MpmcLL.enqueueAll (MpmcLL.initState (α := Nat)) [5, 6]).head ≤ i →
            i ≤ (MpmcLL.enqueueAll (MpmcLL.initState (α := Nat)) [5, 6]).head + 2 →
            i ∈ s2.freed))
    ∧ ((MpmcLL.enqueue (⟨[⟨none, none⟩], 0, none, []⟩ : MpmcLL.QState Nat) 9).head = 0
        ∧ (MpmcLL.enqueue (⟨[⟨none, none⟩], 0, none, []⟩ : MpmcLL.QState Nat) 9).tail = none
        ∧ (∀ i, i < 1 →
            MpmcLL.getNode (MpmcLL.enqueue (⟨[⟨none, none⟩], 0, none, []⟩ : MpmcLL.QState Nat) 9) i
              = MpmcLL.getNode (⟨[⟨none, none⟩], 0, none, []⟩ : MpmcLL.QState Nat) i)
        ∧ 1 ∈ (MpmcLL.enqueue (⟨[⟨none, none⟩], 0, none, []⟩ : MpmcLL.QState Nat) 9).freed) :=
  ⟨by decide,
    mpmc_destruction_protocol.1 Nat _ [5, 6] (by decide),
    mpmc_destruction_protocol.2 Nat ⟨[⟨none, none⟩], 0, none, []⟩ 9 rfl⟩

/-! ## ObjectCachePool (src/unnamed/part_012, sc::ObjectCachePool with N slots)

Pointers are Nat ids.  The cache is the list of the N slot atomics; the
underlying allocator is modelled as a fresh-id counter plus the list of
ids it got back.  In the single-threaded execution every slot CAS
succeeds, so alloc steals the first non-null slot and dealloc installs
into the first null slot.  dealloc destroys the object before the scan;
destruction order is recorded in the destroyed list.  A slots list of
length 0 is exactly the N = 0 pass-through specialization. -/

namespace Pool

/-- The alloc scan: steal the first non-null slot (CAS it to null). -/
def poolTake : List (Option Nat) → Option (Nat × List (Option Nat))
  | [] => none
  | none :: rest =>
    match poolTake rest with
    | some (p, rest1) => some (p, none :: rest1)
    | none => none
  | some p :: rest => some (p, none :: rest)

/-- The dealloc scan: install ptr into the first null slot; none when no
slot accepts it. -/
def poolPut (ptr : Nat) : List (Option Nat) → Option (List (Option Nat))
  | [] => none
  | none :: rest => some (some ptr :: rest)
  | some q :: rest => (poolPut ptr rest).map (fun r => some q :: r)

structure PoolState where
  slots : List (Option Nat)
  nextFresh : Nat
  freedToAllocator : List Nat
  destroyed : List Nat
deriving DecidableEq

/-- alloc(): scan the cache slots in order; first stolen non-null slot
wins; otherwise call the underlying allocator. -/
def alloc (p : PoolState) : Nat × PoolState :=
  match poolTake p.slots with
  | some (ptr, slots1) => (ptr, { p with slots := slots1 })
  | none => (p.nextFresh, { p with nextFresh := p.nextFresh + 1 })

/-- dealloc(ptr): destroy the object, then scan for a null slot to cache
the memory; if none accepts, return the memory to the allocator. -/
def dealloc (p : PoolState) (ptr : Nat) : PoolState :=
  let p1 : PoolState := { p with destroyed := ptr :: p.destroyed }
  match poolPut ptr p1.slots with
  | some slots1 => { p1 with slots := slots1 }
  | none => { p1 with freedToAllocator := ptr :: p1.freedToAllocator }

/-- Number of cached objects: the non-null slots. -/
def cachedCount (slots : List (Option Nat)) : Nat :=
  (slots.filter Option.isSome).length

/-- Index of the first slot satisfying the predicate (specification-side
rendering of the scan order of the source loops). -/
def firstIdx (p : Option Nat → Bool) : List (Option Nat) → Option Nat
  | [] => none
  | o :: rest => if p o then some 0 else (firstIdx p rest).map (fun i => i + 1)

theorem cachedCount_le (slots : List (Option Nat)) : cachedCount slots ≤ slots.length :=
  List.length_filter_le _ _

theorem poolPut_eq (ptr : Nat) : ∀ slots : List (Option Nat),
    poolPut ptr slots = (firstIdx Option.isNone slots).map (fun i => slots.set i (some ptr)) := by
  intro slots
  induction slots with
  | nil => rfl
  | cons o rest ih =>
    cases o with
    | none => simp [poolPut, firstIdx]
    | some q =>
      simp only [poolPut, firstIdx, Option.isNone, ih]
      cases firstIdx Option.isNone rest <;> simp

theorem poolTake_spec : ∀ slots : List (Option Nat),
    (∃ i v, firstIdx Option.isSome slots = some i
      ∧ slots.get? i = some (some v)
      ∧ poolTake slots = some (v, slots.set i none))
    ∨ (firstIdx Option.isSome slots = none ∧ poolTake slots = none) := by
  intro slots
  induction slots with
  | nil => exact Or.inr ⟨rfl, rfl⟩
  | cons o rest ih =>
    cases o with
    | some p =>
      exact Or.inl ⟨0, p, by simp [firstIdx], rfl, by simp [poolTake]⟩
    | none =>
      rcases ih with ⟨i, v, h1, h2, h3⟩ | ⟨h1, h2⟩
      · exact Or.inl ⟨i + 1, v, by simp [firstIdx, h1], by simpa using h2,
          by simp [poolTake, h3]⟩
      · exact Or.inr ⟨by simp [firstIdx, h1], by simp [poolTake, h2]⟩

theorem length_set_eq (slots : List (Option Nat)) (i : Nat) (o : Option Nat) :
    (slots.set i o).length = slots.length := List.length_set slots i o

end Pool

/-- Claim C7: pool dealloc destroys the object and then installs the
pointer into the first null cache slot, returning the memory to the
underlying allocator when no slot accepts it, so at most N = slots.length
objects are ever cached; alloc scans the slots in order, reuses the first
stolen non-null slot and falls back to the underlying allocator when none
is available. -/
theorem pool_cache_bounded_reuse :
    (∀ (p : Pool.PoolState) (x : Nat),
      (Pool.dealloc p x).destroyed = x :: p.destroyed
      ∧ (Pool.dealloc p x).slots.length = p.slots.length
      ∧ Pool.cachedCount (Pool.dealloc p x).slots ≤ p.slots.length
      ∧ ((∃ i, Pool.firstIdx Option.isNone p.slots = some i
            ∧ (Pool.dealloc p x).slots = p.slots.set i (some x)
            ∧ (Pool.dealloc p x).freedToAllocator = p.freedToAllocator)
        ∨ (Pool.firstIdx Option.isNone p.slots = none
            ∧ (Pool.dealloc p x).slots = p.slots
            ∧ (Pool.dealloc p x).freedToAllocator = x :: p.freedToAllocator)))
    ∧ (∀ p : Pool.PoolState,
      (∃ i v, Pool.firstIdx Option.isSome p.slots = some i
          ∧ p.slots.get? i = some (some v)
          ∧ Pool.alloc p = (v, { p with slots := p.slots.set i none }))
      ∨ (Pool.firstIdx Option.isSome p.slots = none
          ∧ Pool.alloc p = (p.nextFresh, { p with nextFresh := p.nextFresh + 1 }))) := by
  constructor
  · intro p x
    have hput := Pool.poolPut_eq x p.slots
    refine ⟨?_, ?_, ?_, ?_⟩
    · simp only [Pool.dealloc]
      cases hc : Pool.poolPut x p.slots <;> simp [hc]
    · simp only [Pool.dealloc]
      rw [hput]
      cases hc : Pool.firstIdx Option.isNone p.slots <;>
        simp [Pool.length_set_eq]
    · calc Pool.cachedCount (Pool.dealloc p x).slots
          ≤ (Pool.dealloc p x).slots.length := Pool.cachedCount_le _
      _ = p.slots.length := by
          simp only [Pool.dealloc]
          rw [hput]
          cases hc : Pool.firstIdx Option.isNone p.slots <;>
            simp [Pool.length_set_eq]
    · cases hc : Pool.firstIdx Option.isNone p.slots with
      | some i =>
        refine Or.inl ⟨i, ?_, ?_⟩ <;> simp only [Pool.dealloc] <;> rw [hput, hc] <;> simp
      | none =>
        refine Or.inr ⟨rfl, ?_, ?_⟩ <;> simp only [Pool.dealloc] <;> rw [hput, hc] <;> simp
  · intro p
    rcases Pool.poolTake_spec p.slots with ⟨i, v, h1, h2, h3⟩ | ⟨h1, h2⟩
    · exact Or.inl ⟨i, v, h1, h2, by simp [Pool.alloc, h3]⟩
    · exact Or.inr ⟨h1, by simp [Pool.alloc, h2]⟩

/-! ## Linked-list MPSC queue (src/unnamed/part_007, sc::mpsc::LinkedListQueue)

Same node heap representation as the MPMC queue; head_ is a plain
(non-atomic) pointer, and release_node feeds the node to the
ObjectCachePool (template parameter PoolSize, here the pool state of the
Pool model).  Only the consumer side is embedded: claim C10 is about
try_dequeue. -/

namespace MpscLL

structure QState (α : Type) where
  nodes : List (MpmcLL.Node α)
  tail : Option Nat
  head : Nat
  pool : Pool.PoolState
deriving DecidableEq

def getNode (s : QState α) (i : Nat) : MpmcLL.Node α := s.nodes.getD i MpmcLL.dfltNode

def release_node (s : QState α) (i : Nat) : QState α :=
  { s with pool := Pool.dealloc s.pool i }

/-- try_dequeue: read head_; load its next; if null return empty at once
(the source returns before any store); else advance head_, release the
old head node to the pool, and return the successor value. -/
def try_dequeue (s : QState α) : Option α × QState α :=
  let h := s.head
  match (getNode s h).next with
  | none => (none, s)
  | some nx => ((getNode s nx).value, release_node { s with head := nx } h)

end MpscLL

/-- Claim C10: when the MPSC try_dequeue finds the sentinel next pointer
null it returns an empty optional and performs no writes: head, tail,
the node heap and the cache pool are exactly as before the call. -/
theorem mpsc_try_dequeue_empty_frame :
    ∀ (α : Type) (s : MpscLL.QState α),
      (MpscLL.getNode s s.head).next = none →
      (MpscLL.try_dequeue s).1 = none
      ∧ (MpscLL.try_dequeue s).2.head = s.head
      ∧ (MpscLL.try_dequeue s).2.tail = s.tail
      ∧ (MpscLL.try_dequeue s).2.nodes = s.nodes
      ∧ (MpscLL.try_dequeue s).2.pool = s.pool
      ∧ (MpscLL.try_dequeue s).2 = s := by
  intro α s h
  have ht : MpscLL.try_dequeue s = (none, s) := by
    simp only [MpscLL.try_dequeue, h]
  refine ⟨?_, ?_, ?_, ?_, ?_, ?_⟩ <;> rw [ht]

theorem mpsc_try_dequeue_empty_frame_witness :
    (MpscLL.getNode (⟨[⟨none, none⟩], some 0, 0, ⟨[none, none], 7, [], []⟩⟩ :
        MpscLL.QState Nat) 0).next = none
    ∧ (MpscLL.try_dequeue (⟨[⟨none, none⟩], some 0, 0, ⟨[none, none], 7, [], []⟩⟩ :
        MpscLL.QState Nat)).1 = none
    ∧ (MpscLL.try_dequeue (⟨[⟨none, none⟩], some 0, 0, ⟨[none, none], 7, [], []⟩⟩ :
        MpscLL.QState Nat)).2
        = (⟨[⟨none, none⟩], some 0, 0, ⟨[none, none], 7, [], []⟩⟩ : MpscLL.QState Nat) :=
  ⟨rfl,
    (mpsc_try_dequeue_empty_frame Nat
      (⟨[⟨none, none⟩], some 0, 0, ⟨[none, none], 7, [], []⟩⟩ : MpscLL.QState Nat) rfl).1,
    (mpsc_try_dequeue_empty_frame Nat
      (⟨[⟨none, none⟩], some 0, 0, ⟨[none, none], 7, [], []⟩⟩ : MpscLL.QState Nat) rfl).2.2.2.2.2⟩

/-! ## Block-array MPMC queue
(src/queue/mpmc_list_queue_v2.hpp, third file: sc::scheduler::Injector)

Blocks live in a heap list indexed by allocation order; the two-slot
ObjectCachePool of blocks is the same slot-scan model as Pool.  The
64-bit atomic index words carry position << Shift | HasNext and wrap at
2^64 like size_t; all index arithmetic is therefore taken mod U64.
Single-threaded execution: every CAS succeeds at its first attempt; a
spin-wait that only another thread could release (offset parked at
BlockCap, wait_next, wait_write) is embedded as returning none. -/

namespace Injector

def U64 : Nat := 2 ^ 64

def WriteBit : Nat := 1

def ReadBit : Nat := 2

def DestroyBit : Nat := 4

def Lap : Nat := 64

def BlockCap : Nat := Lap - 1

def Shift : Nat := 1

def HasNext : Nat := 1

structure Slot (α : Type) where
  value : Option α
  state : Nat
deriving DecidableEq

structure Block (α : Type) where
  next : Option Nat
  slots : List (Slot α)
deriving DecidableEq

/-- A default-constructed Block: null next, BlockCap empty slots. -/
def emptyBlock {α : Type} : Block α := ⟨none, List.replicate BlockCap ⟨none, 0⟩⟩

structure QState (α : Type) where
  headIndex : Nat
  headBlock : Nat
  tailIndex : Nat
  tailBlock : Nat
  blocks : List (Block α)
  pool : List (Option Nat)
  freedBlocks : List Nat
deriving DecidableEq

def getBlock (s : QState α) (b : Nat) : Block α := s.blocks.getD b emptyBlock

def getSlot (s : QState α) (b i : Nat) : Slot α := (getBlock s b).slots.getD i ⟨none, 0⟩

def setSlot (s : QState α) (b i : Nat) (sl : Slot α) : QState α :=
  { s with blocks :=
      s.blocks.set b ⟨(getBlock s b).next, (getBlock s b).slots.set i sl⟩ }

def setBlockNext (s : QState α) (b : Nat) (nx : Option Nat) : QState α :=
  { s with blocks := s.blocks.set b ⟨nx, (getBlock s b).slots⟩ }

/-- The constructor: one block from the (empty) two-slot pool. -/
def initState {α : Type} : QState α := ⟨0, 0, 0, 0, [emptyBlock], [none, none], []⟩

/-- pool_.alloc(): steal a cached block id (AllocTrait::construct makes
it an empty Block again) or allocate a fresh one. -/
def allocBlock (s : QState α) : Nat × QState α :=
  match Pool.poolTake s.pool with
  | some (b, pool1) => (b, { s with pool := pool1, blocks := s.blocks.set b emptyBlock })
  | none => (s.blocks.length, { s with blocks := s.blocks ++ [emptyBlock] })

/-- pool_.dealloc(b): destroy the block, then cache its memory in the
first null pool slot or return it to the underlying allocator. -/
def deallocBlock (s : QState α) (b : Nat) : QState α :=
  match Pool.poolPut b s.pool with
  | some pool1 => { s with pool := pool1 }
  | none => { s with freedBlocks := b :: s.freedBlocks }

/-- destroy_block: walk slots count-1 down to 0; a slot whose Read bit is
clear gets Destroy ORed in and the walk stops there (the thread still
reading that slot inherits destruction); if the walk completes, the block
goes back to the pool. -/
def destroyLoop (s : QState α) (b : Nat) : Nat → QState α
  | 0 => deallocBlock s b
  | i + 1 =>
    let st := (getSlot s b i).state
    if st &&& ReadBit = 0 then
      setSlot s b i ⟨(getSlot s b i).value, st ||| DestroyBit⟩
    else destroyLoop s b i

def destroy_block (s : QState α) (b : Nat) (count : Nat) : QState α := destroyLoop s b count

/-- enqueue_value, single-threaded.  The tail CAS succeeds at its first
attempt; a producer at offset BlockCap - 1 allocates the next block
before the CAS and installs it afterwards (tail.block, tail.index =
new_tail + 2, old block's next, in that order in the source); finally the
value is written into the slot and its Write bit set.  A tail parked at
offset BlockCap could only be released by another producer, so that case
is none. -/
def enqueue (s : QState α) (v : α) : Option (QState α) :=
  let tail := s.tailIndex
  let blk := s.tailBlock
  let offset := (tail >>> Shift) % Lap
  if offset = BlockCap then none
  else
    let al := if offset + 1 = BlockCap then some (allocBlock s) else none
    let s1 := match al with
      | some (_, sa) => sa
      | none => s
    let new_tail := (tail + (1 <<< Shift)) % U64
    let s2 : QState α := { s1 with tailIndex := new_tail }
    let s3 := match al with
      | some (b, _) =>
        let next_index := (new_tail + (1 <<< Shift)) % U64
        setBlockNext { s2 with tailBlock := b, tailIndex := next_index } blk (some b)
      | none => s2
    let slot := getSlot s3 blk offset
    some (setSlot s3 blk offset ⟨some v, slot.state ||| WriteBit⟩)

/-- The value the steal CAS installs into head.index: head + 2, with
HasNext ORed in when the emptiness check ran and saw head and tail in
different laps. -/
def stealNewHead (s : QState α) : Nat :=
  let head := s.headIndex
  let new_head := (head + (1 <<< Shift)) % U64
  if new_head &&& HasNext = 0 then
    if (head >>> Shift) / Lap ≠ (s.tailIndex >>> Shift) / Lap then new_head ||| HasNext
    else new_head
  else new_head

/-- steal (the try_dequeue of the block queue), single-threaded.  The
head CAS succeeds at its first attempt (its failure path - return empty
so the caller retries - is unreachable without contention).  Stuck
spin-waits (offset parked at BlockCap, wait_next on a null next,
wait_write on an unwritten slot) are none. -/
def steal (s : QState α) : Option (Option α × QState α) :=
  let head := s.headIndex
  let block := s.headBlock
  let offset := (head >>> Shift) % Lap
  if offset = BlockCap then none
  else
    let new_head0 := (head + (1 <<< Shift)) % U64
    if new_head0 &&& HasNext = 0 ∧ (head >>> Shift) = (s.tailIndex >>> Shift) then
      some (none, s)
    else
      let new_head := stealNewHead s
      let s1 : QState α := { s with headIndex := new_head }
      let afterMove : Option (QState α) :=
        if offset + 1 = BlockCap then
          match (getBlock s1 block).next with
          | none => none
          | some nxt =>
            let base := ((new_head &&& (U64 - 2)) + (1 <<< Shift)) % U64
            let next_index := if (getBlock s1 nxt).next ≠ none then base ||| HasNext else base
            some { s1 with headBlock := nxt, headIndex := next_index }
        else some s1
      match afterMove with
      | none => none
      | some s2 =>
        let slot := getSlot s2 block offset
        if slot.state &&& WriteBit = 0 then none
        else
          let ret := slot.value
          if offset + 1 = BlockCap then
            some (ret, destroy_block s2 block offset)
          else
            let s3 := setSlot s2 block offset ⟨slot.value, slot.state ||| ReadBit⟩
            if slot.state &&& DestroyBit ≠ 0 then
              some (ret, destroy_block s3 block offset)
            else some (ret, s3)

theorem listGetD_set_self {β : Type} (l : List β) (x d : β) (i : Nat) (h : i < l.length) :
    (l.set i x).getD i d = x := by
  rw [List.getD_eq_getElem?_getD, List.getElem?_set_eq_of_lt x h]
  rfl

theorem listGetD_set_ne {β : Type} (l : List β) (x d : β) (i j : Nat) (h : i ≠ j) :
    (l.set i x).getD j d = l.getD j d := by
  rw [List.getD_eq_getElem?_getD, List.getD_eq_getElem?_getD, List.getElem?_set_ne h]

theorem listGetD_append_lt {β : Type} (l : List β) (x d : β) (i : Nat) (h : i < l.length) :
    (l ++ [x]).getD i d = l.getD i d := by
  rw [List.getD_eq_getElem?_getD, List.getD_eq_getElem?_getD, List.getElem?_append_left h]

theorem listGetD_append_self {β : Type} (l : List β) (x d : β) :
    (l ++ [x]).getD l.length d = x := by
  rw [List.getD_eq_getElem?_getD, List.getElem?_concat_length]
  rfl

end Injector

/-- Claim C3: on the block-array queue, a successful enqueue CAS advances
tail.index by one position (index shift 1, so by 2); a producer at slot
offset BlockCap - 1 allocates the next block before its CAS and, after
the CAS, stores tail.block to the new block, stores tail.index = index +
4 (the position skips the full sentinel), and publishes the block through
the old block's next pointer; Lap = 64 and BlockCap = 63. -/
theorem injector_enqueue_tail_advance (α : Type) (s : Injector.QState α) (v : α)
    (hblk : s.tailBlock < s.blocks.length)
    (hoff : (s.tailIndex >>> Injector.Shift) % Injector.Lap ≠ Injector.BlockCap)
    (hbound : s.tailIndex + 4 < Injector.U64) :
    Injector.Lap = 64 ∧ Injector.BlockCap = 63 ∧ Injector.Shift = 1 ∧ Injector.HasNext = 1
    ∧ ∃ s3, Injector.enqueue s v = some s3
      ∧ ((s.tailIndex >>> Injector.Shift) % Injector.Lap + 1 ≠ Injector.BlockCap →
          s3.tailIndex = s.tailIndex + 2
          ∧ s3.tailBlock = s.tailBlock
          ∧ s3.blocks.length = s.blocks.length)
      ∧ ((s.tailIndex >>> Injector.Shift) % Injector.Lap + 1 = Injector.BlockCap →
          ∃ b, s3.tailBlock = b
            ∧ s3.tailIndex = s.tailIndex + 4
            ∧ (Injector.getBlock s3 s.tailBlock).next = some b) := by
  have h2lt : s.tailIndex + 2 < Injector.U64 := by omega
  refine ⟨rfl, rfl, rfl, rfl, ?_⟩
  by_cases hcap : (s.tailIndex >>> Injector.Shift) % Injector.Lap + 1 = Injector.BlockCap
  · -- install case: the next block is pre-allocated (from the pool or fresh)
    cases hp : Pool.poolTake s.pool with
    | none =>
      simp only [Injector.enqueue, if_neg hoff, if_pos hcap, Injector.allocBlock, hp]
      refine ⟨_, rfl, fun hn => absurd hcap hn, fun _ => ⟨s.blocks.length, rfl, ?_, ?_⟩⟩
      · show (((s.tailIndex + 2) % Injector.U64 + 2) % Injector.U64) = s.tailIndex + 4
        rw [Nat.mod_eq_of_lt h2lt, Nat.mod_eq_of_lt (by omega)]
      · simp only [Injector.getBlock, Injector.setSlot, Injector.setBlockNext]
        rw [Injector.listGetD_set_self _ _ _ _
          (by simp only [List.length_set, List.length_append, List.length_cons,
            List.length_nil]; omega)]
        show ((((s.blocks ++ [Injector.emptyBlock]).set s.tailBlock _).getD s.tailBlock
            Injector.emptyBlock).next) = some s.blocks.length
        rw [Injector.listGetD_set_self _ _ _ _
          (by simp only [List.length_append, List.length_cons, List.length_nil]; omega)]
    | some bp =>
      obtain ⟨b, pool1⟩ := bp
      simp only [Injector.enqueue, if_neg hoff, if_pos hcap, Injector.allocBlock, hp]
      refine ⟨_, rfl, fun hn => absurd hcap hn, fun _ => ⟨b, rfl, ?_, ?_⟩⟩
      · show (((s.tailIndex + 2) % Injector.U64 + 2) % Injector.U64) = s.tailIndex + 4
        rw [Nat.mod_eq_of_lt h2lt, Nat.mod_eq_of_lt (by omega)]
      · simp only [Injector.getBlock, Injector.setSlot, Injector.setBlockNext]
        rw [Injector.listGetD_set_self _ _ _ _
          (by simp only [List.length_set]; omega)]
        show ((((s.blocks.set b Injector.emptyBlock).set s.tailBlock _).getD s.tailBlock
            Injector.emptyBlock).next) = some b
        rw [Injector.listGetD_set_self _ _ _ _
          (by simp only [List.length_set]; omega)]
  · -- ordinary case: the CAS advances tail.index by 2, nothing else moves
    simp only [Injector.enqueue, if_neg hoff, if_neg hcap]
    refine ⟨_, rfl, fun _ => ⟨?_, rfl, ?_⟩, fun hc => absurd hc hcap⟩
    · show (s.tailIndex + 2) % Injector.U64 = s.tailIndex + 2
      exact Nat.mod_eq_of_lt h2lt
    · show (s.blocks.set _ _).length = s.blocks.length
      exact List.length_set s.blocks _ _

/-- A queue state whose tail sits at offset BlockCap - 1 = 62 (index
124), exercising the next-block install path of enqueue. -/
def injectorTail124 : Injector.QState Nat :=
  ⟨0, 0, 124, 0, [Injector.emptyBlock], [none, none], []⟩

namespace Injector

/-- Sequential driver: enqueue the values in turn. -/
def enqueueN (s : QState α) (vs : List α) : Option (QState α) :=
  vs.foldl (fun acc v => acc.bind (fun s1 => enqueue s1 v)) (some s)

/-- Sequential driver: n steals in a row. -/
def stealN : Nat → QState α → Option (QState α)
  | 0, s => some s
  | n + 1, s => (steal s).bind (fun r => stealN n r.2)

/-- The queue after 64 enqueues and 62 steals from a fresh queue: the
head sits at offset 62 = BlockCap - 1 of block 0 with its HasNext bit set
(index 125), the tail in block 1 (index 130), and no block beyond block 1
exists. -/
def headAt62 : Option (QState Nat) := (enqueueN initState (List.range 64)).bind (stealN 62)

def headAt62state : QState Nat := headAt62.getD initState

/-- destroy_block never touches the head fields (it only marks slots and
releases the block to the pool). -/
theorem destroyLoop_preserves_head (s : QState α) (b : Nat) : ∀ n : Nat,
    (destroyLoop s b n).headIndex = s.headIndex
    ∧ (destroyLoop s b n).headBlock = s.headBlock := by
  intro n
  induction n with
  | zero =>
    cases hp : Pool.poolPut b s.pool <;> simp [destroyLoop, deallocBlock, hp]
  | succ i ih =>
    simp only [destroyLoop]
    split
    · exact ⟨rfl, rfl⟩
    · exact ih

theorem destroy_block_preserves_head (s : QState α) (b : Nat) (n : Nat) :
    (destroy_block s b n).headIndex = s.headIndex
    ∧ (destroy_block s b n).headBlock = s.headBlock :=
  destroyLoop_preserves_head s b n

end Injector

/-- Counterexample to claim C4 as stated: at the (reachable) state after
64 enqueues and 62 steals, the stealing consumer is at offset
BlockCap - 1 (so offset + 1 = BlockCap); the CAS installs new_head = 127
(HasNext set, carried over from earlier steals), the next block is block
1 and no block beyond it exists, so maybe_has_next = 0; the claim formula
(new_head + 2) | maybe_has_next gives 129, but the code stores
head.index = 128 (it first clears the HasNext bit of new_head). -/
theorem injector_steal_head_store_cex :
    Injector.headAt62.map (fun s => (s.headIndex >>> Injector.Shift) % Injector.Lap + 1)
      = some Injector.BlockCap
    ∧ Injector.headAt62.map Injector.stealNewHead = some 127
    ∧ Injector.headAt62.map (fun s => (Injector.getBlock s s.headBlock).next) = some (some 1)
    ∧ Injector.headAt62.map (fun s => (Injector.getBlock s 1).next) = some none
    ∧ Injector.headAt62.bind
        (fun s => (Injector.steal s).map (fun r => (r.2.headBlock, r.2.headIndex)))
      = some (1, 128)
    ∧ ((127 + 2) ||| 0 : Nat) = 129
    ∧ (128 : Nat) ≠ 129 :=
  ⟨rfl, rfl, rfl, rfl, rfl, rfl, by decide⟩

/-- Claim C4 (amended): when the dequeuer's offset satisfies
offset + 1 = BlockCap, after its successful head CAS it waits for
block.next to become non-null, stores head.block = next, and stores
head.index = ((new_head AND NOT HasNext) + 2) OR maybe_has_next - the
HasNext bit possibly carried in new_head is cleared first - where
maybe_has_next is the HasNext bit set exactly when a block beyond the
next one exists. -/
theorem injector_steal_block_transition (α : Type) (s : Injector.QState α) (nxt : Nat)
    (hoff : (s.headIndex >>> Injector.Shift) % Injector.Lap + 1 = Injector.BlockCap)
    (hne : ¬(((s.headIndex + (1 <<< Injector.Shift)) % Injector.U64) &&& Injector.HasNext = 0
        ∧ (s.headIndex >>> Injector.Shift) = (s.tailIndex >>> Injector.Shift)))
    (hnext : (Injector.getBlock s s.headBlock).next = some nxt)
    (hwrite : ¬((Injector.getSlot s s.headBlock
        ((s.headIndex >>> Injector.Shift) % Injector.Lap)).state
          &&& Injector.WriteBit = 0)) :
    ∃ out, Injector.steal s = some out
      ∧ out.2.headBlock = nxt
      ∧ out.2.headIndex =
          (((Injector.stealNewHead s &&& (Injector.U64 - 2)) + 2) % Injector.U64)
          ||| (if (Injector.getBlock s nxt).next ≠ none then Injector.HasNext else 0)
      ∧ out.1 = (Injector.getSlot s s.headBlock
          ((s.headIndex >>> Injector.Shift) % Injector.Lap)).value := by
  have hoffne : ¬((s.headIndex >>> Injector.Shift) % Injector.Lap = Injector.BlockCap) := by
    intro h
    rw [h] at hoff
    simp only [Injector.BlockCap, Injector.Lap] at hoff
    omega
  have hnext1 : (Injector.getBlock
      ({ s with headIndex := Injector.stealNewHead s }) s.headBlock).next = some nxt := hnext
  simp only [Injector.steal]
  rw [if_neg hoffne, if_neg hne, if_pos hoff, hnext1]
  dsimp only
  by_cases hgb : (Injector.getBlock s nxt).next = none
  · have hc1 : ¬((Injector.getBlock
        ({ s with headIndex := Injector.stealNewHead s }) nxt).next ≠ none) := fun h => h hgb
    have hc2 : ¬((Injector.getBlock s nxt).next ≠ none) := fun h => h hgb
    rw [if_neg hc1, if_neg hc2]
    split_ifs with h1
    · exact absurd h1 hwrite
    · refine ⟨_, rfl, ?_, ?_, rfl⟩
      · rw [(Injector.destroy_block_preserves_head _ _ _).2]
      · rw [(Injector.destroy_block_preserves_head _ _ _).1]
        show (((Injector.stealNewHead s &&& (Injector.U64 - 2)) + 2) % Injector.U64)
            = (((Injector.stealNewHead s &&& (Injector.U64 - 2)) + 2) % Injector.U64) ||| 0
        exact (Nat.or_zero _).symm
  · have hc1 : (Injector.getBlock
        ({ s with headIndex := Injector.stealNewHead s }) nxt).next ≠ none := hgb
    have hc2 : (Injector.getBlock s nxt).next ≠ none := hgb
    rw [if_pos hc1, if_pos hc2]
    split_ifs with h1
    · exact absurd h1 hwrite
    · refine ⟨_, rfl, ?_, ?_, rfl⟩
      · rw [(Injector.destroy_block_preserves_head _ _ _).2]
      · rw [(Injector.destroy_block_preserves_head _ _ _).1]
        rfl

theorem injector_steal_block_transition_witness :
    ((Injector.headAt62state.headIndex >>> Injector.Shift) % Injector.Lap + 1
        = Injector.BlockCap
      ∧ ¬(((Injector.headAt62state.headIndex + (1 <<< Injector.Shift)) % Injector.U64)
            &&& Injector.HasNext = 0
          ∧ (Injector.headAt62state.headIndex >>> Injector.Shift)
            = (Injector.headAt62state.tailIndex >>> Injector.Shift))
      ∧ (Injector.getBlock Injector.headAt62state Injector.headAt62state.headBlock).next
          = some 1
      ∧ ¬((Injector.getSlot Injector.headAt62state Injector.headAt62state.headBlock
          ((Injector.headAt62state.headIndex >>> Injector.Shift) % Injector.Lap)).state
            &&& Injector.WriteBit = 0))
    ∧ ∃ out, Injector.steal Injector.headAt62state = some out
      ∧ out.2.headBlock = 1
      ∧ out.2.headIndex =
          (((Injector.stealNewHead Injector.headAt62state &&& (Injector.U64 - 2)) + 2)
            % Injector.U64)
          ||| (if (Injector.getBlock Injector.headAt62state 1).next ≠ none
              then Injector.HasNext else 0)
      ∧ out.1 = (Injector.getSlot Injector.headAt62state Injector.headAt62state.headBlock
          ((Injector.headAt62state.headIndex >>> Injector.Shift) % Injector.Lap)).value :=
  ⟨⟨by decide, by decide, by decide, by decide⟩,
    injector_steal_block_transition Nat Injector.headAt62state 1
      (by decide) (by decide) (by decide) (by decide)⟩

theorem injector_enqueue_tail_advance_witness :
    (injectorTail124.tailBlock < injectorTail124.blocks.length
      ∧ (injectorTail124.tailIndex >>> Injector.Shift) % Injector.Lap ≠ Injector.BlockCap
      ∧ injectorTail124.tailIndex + 4 < Injector.U64)
    ∧ (Injector.Lap = 64 ∧ Injector.BlockCap = 63 ∧ Injector.Shift = 1 ∧ Injector.HasNext = 1
    ∧ ∃ s3, Injector.enqueue injectorTail124 7 = some s3
      ∧ ((injectorTail124.tailIndex >>> Injector.Shift) % Injector.Lap + 1 ≠ Injector.BlockCap →
          s3.tailIndex = injectorTail124.tailIndex + 2
          ∧ s3.tailBlock = injectorTail124.tailBlock
          ∧ s3.blocks.length = injectorTail124.blocks.length)
      ∧ ((injectorTail124.tailIndex >>> Injector.Shift) % Injector.Lap + 1 = Injector.BlockCap →
          ∃ b, s3.tailBlock = b
            ∧ s3.tailIndex = injectorTail124.tailIndex + 4
            ∧ (Injector.getBlock s3 injectorTail124.tailBlock).next = some b)) :=
  ⟨⟨by decide, by decide, by decide⟩,
    injector_enqueue_tail_advance Nat injectorTail124 7 (by decide) (by decide) (by decide)⟩

/-! ## BlockingQueue (src/queue/blocking_queue.hpp)

enqueue dispatches at compile time: when the argument type V equals the
queue's value_type, v is forwarded as-is; otherwise the source tests
std::is_constructible_v of V from value_type (note that argument order)
and in that branch forwards value_type(std::forward of v); otherwise a
static_assert rejects the call.  After forwarding, cond_var_.notify_all()
wakes every waiter.  The type level is modelled by a small universe of
C++ types with its is_constructible relation; the value level by the
inner queue contents plus a notification counter. -/

namespace BlockingQueue

/-- Outcome of the if-constexpr chain in enqueue: forward unchanged,
forward a converted value_type, or fail the static_assert. -/
inductive Dispatch where
  | direct
  | convert
  | reject
deriving DecidableEq

/-- A small universe of C++ types: std::string, a const char pointer,
and a Wrapper type with constructor Wrapper(std::string) but no
conversion to std::string. -/
inductive Ty where
  | str
  | cstr
  | wrapper
deriving DecidableEq

/-- is_constructible t u: a t can be constructed from an argument of type
u (std::is_constructible_v with t first): a std::string from a const
char pointer, a Wrapper from a std::string, and every type from itself
(copy construction). -/
def is_constructible : Ty → Ty → Bool
  | .str, .cstr => true
  | .wrapper, .str => true
  | t, u => t == u

/-- The if-constexpr chain of BlockingQueue::enqueue exactly as the
source writes it: the conversion branch is guarded by
std::is_constructible_v of V from value_type (arguments in that order). -/
def enqueue_dispatch (value_type V : Ty) : Dispatch :=
  if V == value_type then .direct
  else if is_constructible V value_type then .convert
  else .reject

/-- Whether the conversion branch body, value_type(v), itself compiles:
that needs value_type constructible from V. -/
def convert_body_compiles (value_type V : Ty) : Bool := is_constructible value_type V

/-- Value-level state of the adapter: inner queue contents and how many
notify_all calls have been issued. -/
structure BQState (α : Type) where
  inner : List α
  notified : Nat
deriving DecidableEq

/-- An accepted enqueue forwards the value to the inner queue and then
calls cond_var_.notify_all(). -/
def enqueue_effect (s : BQState α) (v : α) : BQState α :=
  ⟨s.inner ++ [v], s.notified + 1⟩

end BlockingQueue

/-- Claim C8, against the code: an accepted enqueue does forward to the
inner queue and then notify all waiters; but the heterogeneous-argument
guard in the source tests std::is_constructible_v of V from value_type -
the reverse of what its own branch body value_type(v) requires - so a
const char pointer is rejected for a std::string queue although it is
convertible, and a Wrapper argument (constructible from std::string, not
convertible to it) selects the conversion branch whose body does not
compile. -/
theorem blocking_enqueue_dispatch_bug :
    (∀ (α : Type) (s : BlockingQueue.BQState α) (v : α),
      (BlockingQueue.enqueue_effect s v).inner = s.inner ++ [v]
      ∧ (BlockingQueue.enqueue_effect s v).notified = s.notified + 1)
    ∧ BlockingQueue.is_constructible .str .cstr = true
    ∧ BlockingQueue.enqueue_dispatch .str .cstr = .reject
    ∧ BlockingQueue.enqueue_dispatch .str .wrapper = .convert
    ∧ BlockingQueue.convert_body_compiles .str .wrapper = false
    ∧ BlockingQueue.enqueue_dispatch .str .str = .direct :=
  ⟨fun α s v => ⟨rfl, rfl⟩, rfl, rfl, rfl, rfl, rfl⟩

end SyncCell
